import Mathlib

/-!
Verification of the pagmo CEC2013/CEC2014 benchmark-suite specification.

The repository fragment ships only the class headers `cec2013.hpp` and
`cec2014.hpp`: every member function (the transform primitives `shiftfunc`,
`rotatefunc`, `sr_func`, `asyfunc`, `oszfunc`, the hybrid evaluators
`hf01..hf06`, the composition weight routine `cf_cal`, the constructors and
`fitness`) is declared there but its body lives in a translation unit outside
the fragment.  The definitions below therefore embed the documented behaviour
of those routines, shallowly, over exact rationals:

* `double` becomes `ℚ` (exact arithmetic; the spec's formulas are stated over
  reals, and all branch conditions it mentions are sign/zero tests that `ℚ`
  decides exactly);
* the transcendental primitives `exp`, `log`, `sin`, `sqrt` and the real
  power `pow` are abstract function parameters, so every definition stays
  executable and every theorem quantifies over their interpretation;
* `+infinity` in the composition-weight step becomes the `none` value of
  `Option ℚ` (`some q` is a finite weight);
* the mutable problem instance becomes explicit state passing
  (`ProbState`, threaded through `fitness`).
-/

namespace Cec

/-- Modelled from the spec: `shift(x, origin)` of §4.1 (body of
`cec2014::shiftfunc` / `cec2013::shiftfunc`, absent from the fragment):
`y[i] = x[i] - origin[i]`. -/
def shiftfunc (x Os : List ℚ) : List ℚ :=
  List.zipWith (fun a b => a - b) x Os

/-- Modelled from the spec: `rotate(x, M)` of §4.1 (body of
`cec2014::rotatefunc` / `cec2013::rotatefunc`, absent from the fragment):
the matrix-vector product `y = M·x`, with `M` a flattened row-major `n×n`
matrix, `y[i] = Σ_j M[i*n+j] * x[j]`. -/
def rotatefunc (x Mr : List ℚ) (nx : ℕ) : List ℚ :=
  (List.range nx).map (fun i =>
    ((List.range nx).map (fun j => x.getD j 0 * Mr.getD (i * nx + j) 0)).sum)

/-- The flattened row-major `n×n` identity matrix, used to compare the
rotation-disabled short-circuit with an explicit identity multiply. -/
def idMat (n : ℕ) : List ℚ :=
  (List.range (n * n)).map (fun k => if k / n = k % n then (1 : ℚ) else 0)

/-- Modelled from the spec: the shift-rotate orchestrator `sr` of §4.2 (body
of `cec2014::sr_func`, absent from the fragment): shift if enabled, then
rotate if enabled (the disabled rotation passes the vector through unchanged,
a short-circuit), then scale every coordinate by `sh_rate`. -/
def sr_func (x Os Mr : List ℚ) (nx : ℕ) (sh_rate : ℚ) (s_flag r_flag : Bool) :
    List ℚ :=
  let y := if s_flag then shiftfunc x Os else x
  let z := if r_flag then rotatefunc y Mr nx else y
  z.map (fun t => t * sh_rate)

/-- Sign of a rational, as the spec's `sign(x)`. -/
def sgn (q : ℚ) : ℚ :=
  if 0 < q then 1 else if q < 0 then -1 else 0

/-- Modelled from the spec: `oscillation(x)` of §4.1 (body of
`cec2014::oszfunc` / `cec2013::oszfunc`, absent from the fragment).  Per
coordinate: `0` when `x[i] = 0` (the guard keeps `log` away from `0`),
otherwise `sign(x[i]) * exp(log|x[i]| + 0.049*(sin(c1*log|x[i]|) +
sin(c2*log|x[i]|)))` with `c1 = 10` if `x[i] > 0` else `5.5` and `c2 = 7.9`
if `x[i] > 0` else `3.1`.  `expf`, `logf`, `sinf` interpret the
transcendental primitives. -/
def oszfunc (expf logf sinf : ℚ → ℚ) (x : List ℚ) : List ℚ :=
  x.map (fun xi =>
    if xi = 0 then 0
    else
      let l := logf |xi|
      let c1 : ℚ := if 0 < xi then 10 else 5.5
      let c2 : ℚ := if 0 < xi then 7.9 else 3.1
      sgn xi * expf (l + 0.049 * (sinf (c1 * l) + sinf (c2 * l))))

/-- Modelled from the spec: `asymmetry(x, beta)` of §4.1 (body of
`cec2014::asyfunc` / `cec2013::asyfunc`, absent from the fragment).  For
`x[i] > 0`, `y[i] = x[i] ^ (1 + beta * sqrt(x[i]) * (i/(n-1)))` with the
0-based index `i`, the factor `i/(n-1)` being `0` when `n = 1`; otherwise
`y[i] = x[i]`.  `sqrtf` and `powf` interpret square root and real power. -/
def asyfunc (sqrtf : ℚ → ℚ) (powf : ℚ → ℚ → ℚ) (x : List ℚ) (nx : ℕ)
    (beta : ℚ) : List ℚ :=
  (List.range nx).map (fun i =>
    let xi := x.getD i 0
    if 0 < xi then
      powf xi (1 + beta * sqrtf xi * (if nx = 1 then 0 else (i : ℚ) / ((nx : ℚ) - 1)))
    else xi)

/-- Modelled from the spec: the hybrid group-size derivation of §4.4 (used by
the bodies of `cec2014::hf01..hf06`, absent from the fragment): given the
fixed proportion list `p_1..p_k`, sizes are `⌊p_i * n⌋` for all but the last
group, and the last group absorbs the remainder `n - Σ previous`. -/
def groupSizes (ps : List ℚ) (n : ℕ) : List ℕ :=
  if ps = [] then []
  else
    let gs := ps.dropLast.map (fun p => (⌊p * (n : ℚ)⌋).toNat)
    gs ++ [n - gs.sum]

/-- Partition a vector into contiguous sub-vectors of the given sizes, in
order — step 3 of the hybrid algorithm of §4.4. -/
def partitionBy (sizes : List ℕ) (x : List ℚ) : List (List ℚ) :=
  match sizes with
  | [] => []
  | g :: rest => x.take g :: partitionBy rest (x.drop g)

/-- Modelled from the spec: step 2 of the hybrid algorithm of §4.4: permute
`z` by the shuffle table, `z'[i] = z[shuffle[i]]`. -/
def shuffled (z : List ℚ) (S : List ℕ) : List ℚ :=
  S.map (fun j => z.getD j 0)

/-- Modelled from the spec: the hybrid evaluator of §4.4 (bodies of
`cec2014::hf01..hf06`, absent from the fragment), generic in the list of
base-shape functions: shift-rotate the whole vector once, permute by the
shuffle table, partition into the fixed group sizes, apply each group's base
shape directly to its sub-vector, and sum the scalar results. -/
def hybridEval (shapes : List (List ℚ → ℚ)) (sizes : List ℕ) (S : List ℕ)
    (x Os Mr : List ℚ) (nx : ℕ) (s_flag r_flag : Bool) : ℚ :=
  let z := sr_func x Os Mr nx 1 s_flag r_flag
  let zp := shuffled z S
  (List.zipWith (fun f p => f p) shapes (partitionBy sizes zp)).sum

/-- Squared Euclidean distance `Σ_j (x[j] - s[j])^2` — exactly `d_i^2` of
step 1 of the composition algorithm of §4.5 (`d_i = 0` iff this is `0`). -/
def sqdist (x s : List ℚ) : ℚ :=
  (List.zipWith (fun a b => (a - b) * (a - b)) x s).sum

/-- Modelled from the spec: step 2 of the composition algorithm of §4.5 (part
of the body of `cec2014::cf_cal` / `cec2013::cf_cal`, absent from the
fragment): the raw weight of sub-function `i` is `+infinity` (encoded `none`)
when `d_i = 0`, else `exp(-d_i^2 / (2 * n * δ_i^2))` (encoded `some`). -/
def rawWeight (expf : ℚ → ℚ) (x shift_i : List ℚ) (nx : ℕ) (delta_i : ℚ) :
    Option ℚ :=
  let d2 := sqdist x shift_i
  if d2 = 0 then none
  else some (expf (-d2 / (2 * (nx : ℚ) * (delta_i * delta_i))))

/-- The list of raw weights of all `N` sub-functions (step 2 of §4.5 applied
pointwise to the shift table and the weight-radius table). -/
def rawWeights (expf : ℚ → ℚ) (x : List ℚ) (shifts : List (List ℚ))
    (nx : ℕ) (deltas : List ℚ) : List (Option ℚ) :=
  List.zipWith (fun s d => rawWeight expf x s nx d) shifts deltas

/-- Modelled from the spec: step 3 of the composition algorithm of §4.5 (part
of the body of `cf_cal`, absent from the fragment): if any raw weight is
infinite (`none`) the infinite one becomes `1` and every finite one `0`;
otherwise if the raw weights sum to `0` every weight becomes `1/N`;
otherwise each weight is divided by the sum. -/
def normWeights (ws : List (Option ℚ)) : List ℚ :=
  if ws.any (fun w => w = none) then
    ws.map (fun w => if w = none then 1 else 0)
  else
    let s := (ws.map (fun w => w.getD 0)).sum
    if s = 0 then ws.map (fun _ => 1 / (ws.length : ℚ))
    else ws.map (fun w => w.getD 0 / s)

/-- Modelled from the spec: steps 3–5 of §4.5 assembled (body of `cf_cal`,
absent from the fragment): the weighted sum `Σ w_i * fit_i` of the
per-sub-function results under the normalized weights. -/
def cf_cal (expf : ℚ → ℚ) (x : List ℚ) (shifts : List (List ℚ)) (nx : ℕ)
    (deltas fit : List ℚ) : ℚ :=
  (List.zipWith (fun w f => w * f)
    (normWeights (rawWeights expf x shifts nx deltas)) fit).sum

/-- The read-only problem data of §3: problem id, dimension, the flattened
origin-shift table, the flattened row-major rotation-matrix table, and the
shuffle table (mirrors the members `func_num`, `m_origin_shift`,
`m_rotation_matrix`, `m_shuffle` of `cec2014.hpp`). -/
structure ProbData where
  func_num : ℕ
  nx : ℕ
  origin_shift : List ℚ
  rotation_matrix : List ℚ
  shuffle : List ℕ
deriving DecidableEq

/-- A problem instance: the read-only data plus the two mutable scratch
vectors `m_y`, `m_z` of §3 (the `mutable` members of both headers), reused
across evaluations. -/
structure ProbState where
  data : ProbData
  m_y : List ℚ
  m_z : List ℚ
deriving DecidableEq

/-- The sphere base shape of §4.3: `Σ y[i]^2` (body of
`cec2014::sphere_func`, absent from the fragment; the spec documents the
formula). -/
def sphere_func (y : List ℚ) : ℚ :=
  (y.map (fun t => t ^ 2)).sum

/-- Modelled from the spec: the scalar fitness value as a pure function of
the read-only data and the input (§2 control flow: dispatch on the problem
id to a single base shape through the shift-rotate orchestrator, to the
hybrid evaluator, or to the composition evaluator).  The per-id base-shape
tables live in the absent translation unit; the documented sphere shape
stands for the base-shape leaves, composed exactly as §4.4/§4.5 prescribe
(a representative 3-way hybrid and a representative 5-sub-function
composition with radii 10..50 and biases 0..400). -/
def evalScalar (expf : ℚ → ℚ) (d : ProbData) (x : List ℚ) : ℚ :=
  if d.func_num ≤ 16 then
    sphere_func (sr_func x d.origin_shift d.rotation_matrix d.nx 1 true true)
  else if d.func_num ≤ 22 then
    hybridEval (List.replicate 3 sphere_func) (groupSizes [0.3, 0.3, 0.4] d.nx)
      d.shuffle x d.origin_shift d.rotation_matrix d.nx true true
  else
    let shifts := partitionBy (List.replicate 5 d.nx) d.origin_shift
    let fits := List.zipWith
      (fun s b => sphere_func (sr_func x s d.rotation_matrix d.nx 1 true true) + b)
      shifts [0, 100, 200, 300, 400]
    cf_cal expf x shifts d.nx [10, 20, 30, 40, 50] fits

/-- Modelled from the spec: `fitness` (bodies of `cec2014::fitness` /
`cec2013::fitness`, absent from the fragment).  The scratch vectors `m_y`,
`m_z` receive the shift and shift-rotate intermediates of the pipeline (§3
working buffers); the returned fitness vector holds the single objective
value (the headers declare the return type `vector_double`). -/
def fitness (expf : ℚ → ℚ) (s : ProbState) (x : List ℚ) :
    List ℚ × ProbState :=
  let y := shiftfunc x s.data.origin_shift
  let z := rotatefunc y s.data.rotation_matrix s.data.nx
  ([evalScalar expf s.data x], { s with m_y := y, m_z := z })

/-- `cec2014::get_origin_shift` (present in the fragment,
`cec2014.hpp:111-114`): returns the origin-shift member. -/
def get_origin_shift (s : ProbState) : List ℚ :=
  s.data.origin_shift

/-- The supported dimensions of the 2014 suite (`cec2014.hpp:89-92`
constructor documentation). -/
def cec2014_supported_dims : List ℕ := [2, 10, 20, 30, 50, 100]

/-- The supported dimensions of the 2013 suite (`cec2013.hpp:83-86`
constructor documentation). -/
def cec2013_supported_dims : List ℕ :=
  [2, 5, 10, 20, 30, 40, 50, 60, 70, 80, 90, 100]

/-- Modelled from the spec: the `cec2014` constructor's validation (§6; body
absent from the fragment, documented at `cec2014.hpp:84-94`): fails with an
invalid-argument condition when the problem id is not in `1..30` or the
dimension is not a supported one.  The table loading it performs on success
is the out-of-scope resource provider, so the success payload is trivial. -/
def cec2014_new (prob_id dim : ℕ) : Except String Unit :=
  if prob_id < 1 ∨ 30 < prob_id then Except.error "invalid_argument: prob_id"
  else if dim ∈ cec2014_supported_dims then Except.ok ()
  else Except.error "invalid_argument: dim"

/-- Modelled from the spec: the `cec2013` constructor's validation (§6; body
absent from the fragment, documented at `cec2013.hpp:78-88`): fails with an
invalid-argument condition when the problem id is not in `1..28` or the
dimension is not a supported one. -/
def cec2013_new (prob_id dim : ℕ) : Except String Unit :=
  if prob_id < 1 ∨ 28 < prob_id then Except.error "invalid_argument: prob_id"
  else if dim ∈ cec2013_supported_dims then Except.ok ()
  else Except.error "invalid_argument: dim"

/-! ### Helper lemmas -/

theorem getD_range_map (f : ℕ → ℚ) {m k : ℕ} (h : k < m) :
    ((List.range m).map f).getD k 0 = f k := by
  simp [List.getD_eq_getElem?_getD, List.getElem?_map, List.getElem?_range h]

theorem getD_map_lt {α β : Type} [Inhabited β] (f : α → β) (l : List α)
    {i : ℕ} (h : i < l.length) (d : β) (d' : α) :
    (l.map f).getD i d = f (l.getD i d') := by
  rw [List.getD_eq_getElem?_getD, List.getElem?_map,
    List.getElem?_eq_getElem h, List.getD_eq_getElem]
  rfl

theorem sum_range_map_ite (x : List ℚ) {i n : ℕ} (h : i < n) :
    ((List.range n).map
      (fun j => x.getD j 0 * (if i = j then (1 : ℚ) else 0))).sum
      = x.getD i 0 := by
  induction n with
  | zero => omega
  | succ n ih =>
    rw [List.range_succ, List.map_append, List.sum_append]
    by_cases hi : i = n
    · subst hi
      have hz : ((List.range i).map
          (fun j => x.getD j 0 * (if i = j then (1 : ℚ) else 0))).sum = 0 := by
        apply List.sum_eq_zero
        intro t ht
        rcases List.mem_map.1 ht with ⟨j, hj, rfl⟩
        have : j < i := List.mem_range.1 hj
        rw [if_neg (by omega), mul_zero]
      rw [hz, zero_add]
      simp
    · have hi' : i < n := by omega
      rw [ih hi']
      simp [if_neg hi]

theorem idMat_getD {n i j : ℕ} (hi : i < n) (hj : j < n) :
    (idMat n).getD (i * n + j) 0 = if i = j then (1 : ℚ) else 0 := by
  have hlt : i * n + j < n * n := by
    have h1 : i * n + j < (i + 1) * n := by
      rw [add_mul, one_mul]
      omega
    have h2 : (i + 1) * n ≤ n * n := Nat.mul_le_mul_right n (by omega)
    omega
  rw [idMat, getD_range_map _ hlt]
  have hn : 0 < n := by omega
  have hdiv : (i * n + j) / n = i := by
    rw [Nat.mul_comm i n, Nat.mul_add_div hn, Nat.div_eq_of_lt hj, Nat.add_zero]
  have hmod : (i * n + j) % n = j := by
    rw [Nat.mul_comm i n, Nat.mul_add_mod, Nat.mod_eq_of_lt hj]
  rw [hdiv, hmod]

theorem map_getD_range (x : List ℚ) :
    (List.range x.length).map (fun i => x.getD i 0) = x := by
  induction x with
  | nil => rfl
  | cons a t ih =>
    rw [List.length_cons, List.range_succ_eq_map, List.map_cons, List.map_map]
    have : (fun i => (a :: t).getD i 0) ∘ Nat.succ = fun i => t.getD i 0 := by
      funext i
      simp [Function.comp, List.getD_cons_succ]
    rw [this, ih]
    rfl

theorem rotatefunc_idMat (x : List ℚ) (n : ℕ) (hx : x.length = n) :
    rotatefunc x (idMat n) n = x := by
  rw [rotatefunc]
  have hrow : ∀ i ∈ List.range n,
      ((List.range n).map (fun j => x.getD j 0 * (idMat n).getD (i * n + j) 0)).sum
        = x.getD i 0 := by
    intro i hi
    have hi' : i < n := List.mem_range.1 hi
    have hinner : (List.range n).map
        (fun j => x.getD j 0 * (idMat n).getD (i * n + j) 0)
        = (List.range n).map
          (fun j => x.getD j 0 * (if i = j then (1 : ℚ) else 0)) := by
      apply List.map_congr_left
      intro j hj
      rw [idMat_getD hi' (List.mem_range.1 hj)]
    rw [hinner, sum_range_map_ite x hi']
  rw [List.map_congr_left hrow, ← hx, map_getD_range]

/-! ### Claim theorems -/

/-- C5: for every input vector and every sub-function whose rotation flag is
disabled, the shift-rotate orchestration that skips the rotation step
(passing the vector through unchanged) produces output identical to the same
orchestration performing an explicit matrix-vector multiply with the identity
matrix. -/
theorem sr_rotation_short_circuit (x Os Mr : List ℚ) (n : ℕ) (sh_rate : ℚ)
    (s_flag : Bool) (hx : x.length = n) (hOs : Os.length = n) :
    sr_func x Os Mr n sh_rate s_flag false
      = sr_func x Os (idMat n) n sh_rate s_flag true := by
  rw [sr_func, sr_func]
  cases s_flag with
  | false =>
    simp only [if_neg, if_pos, Bool.false_eq_true, if_false, if_true]
    rw [rotatefunc_idMat x n hx]
  | true =>
    simp only [if_pos, Bool.false_eq_true, if_false, if_true]
    have hlen : (shiftfunc x Os).length = n := by
      rw [shiftfunc, List.length_zipWith, hx, hOs, Nat.min_self]
    rw [rotatefunc_idMat _ n hlen]

/-- Witness for C5 at a concrete input: dimension 2, a non-trivial matrix in
the skipped slot, shift enabled. -/
theorem sr_rotation_short_circuit_witness :
    ([1, 2] : List ℚ).length = 2 ∧ ([3, 4] : List ℚ).length = 2
      ∧ sr_func [1, 2] [3, 4] [5, 6, 7, 8] 2 3 true false
        = sr_func [1, 2] [3, 4] (idMat 2) 2 3 true true :=
  ⟨by decide, by decide,
    sr_rotation_short_circuit [1, 2] [3, 4] [5, 6, 7, 8] 2 3 true
      (by decide) (by decide)⟩

/-- C6: the oscillation transform returns `0` at a zero coordinate (the zero
case is guarded so `log(0)` is never evaluated: the output is unchanged under
any reinterpretation of `log` away from `0`), and otherwise
`sign(x[i]) * exp(log|x[i]| + 0.049*(sin(c1*log|x[i]|) + sin(c2*log|x[i]|)))`
with `c1 = 10` if `x[i] > 0` else `5.5` and `c2 = 7.9` if `x[i] > 0`
else `3.1`. -/
theorem oszfunc_spec (expf logf sinf : ℚ → ℚ) (x : List ℚ) (i : ℕ)
    (hi : i < x.length) :
    (oszfunc expf logf sinf x).length = x.length
    ∧ (x.getD i 0 = 0 → (oszfunc expf logf sinf x).getD i 0 = 0)
    ∧ (x.getD i 0 ≠ 0 →
        (oszfunc expf logf sinf x).getD i 0
          = sgn (x.getD i 0) * expf (logf |x.getD i 0|
              + 0.049 * (sinf ((if 0 < x.getD i 0 then 10 else 5.5) * logf |x.getD i 0|)
                + sinf ((if 0 < x.getD i 0 then 7.9 else 3.1) * logf |x.getD i 0|))))
    ∧ (∀ logf2 : ℚ → ℚ, (∀ t : ℚ, t ≠ 0 → logf t = logf2 t) →
        oszfunc expf logf sinf x = oszfunc expf logf2 sinf x) := by
  refine ⟨?_, ?_, ?_, ?_⟩
  · rw [oszfunc, List.length_map]
  · intro h
    rw [oszfunc, getD_map_lt _ x hi 0 0, if_pos h]
  · intro h
    rw [oszfunc, getD_map_lt _ x hi 0 0, if_neg h]
  · intro logf2 hl
    rw [oszfunc, oszfunc]
    apply List.map_congr_left
    intro a _
    by_cases h : a = 0
    · simp [h]
    · simp only [if_neg h]
      rw [hl |a| (abs_ne_zero.mpr h)]

/-- Witness for C6 at a concrete input: the nonzero branch of `oszfunc` at
coordinate 1 of `[0, 2]`, with the transcendental primitives interpreted as
the identity. -/
theorem oszfunc_spec_witness :
    (([0, 2] : List ℚ).getD 1 0 ≠ 0)
    ∧ (oszfunc id id id [0, 2]).getD 1 0
        = sgn (([0, 2] : List ℚ).getD 1 0) * id (id |([0, 2] : List ℚ).getD 1 0|
            + 0.049 * (id ((if 0 < ([0, 2] : List ℚ).getD 1 0 then 10 else 5.5)
                  * id |([0, 2] : List ℚ).getD 1 0|)
              + id ((if 0 < ([0, 2] : List ℚ).getD 1 0 then 7.9 else 3.1)
                  * id |([0, 2] : List ℚ).getD 1 0|))) :=
  ⟨by decide, (oszfunc_spec id id id [0, 2] 1 (by decide)).2.2.1 (by decide)⟩

/-- C7: the asymmetry transform returns
`x[i] ^ (1 + beta * sqrt(x[i]) * (i/(n-1)))` at positive coordinates (0-based
index `i`) and `x[i]` otherwise, with the exponent factor `i/(n-1)` equal
to `0` when `n = 1` (so at `n = 1` the exponent is the plain `1` and no
division occurs). -/
theorem asyfunc_spec (sqrtf : ℚ → ℚ) (powf : ℚ → ℚ → ℚ) (x : List ℚ)
    (nx : ℕ) (beta : ℚ) (i : ℕ) (hi : i < nx) :
    (asyfunc sqrtf powf x nx beta).length = nx
    ∧ (0 < x.getD i 0 →
        (asyfunc sqrtf powf x nx beta).getD i 0
          = powf (x.getD i 0) (1 + beta * sqrtf (x.getD i 0)
              * (if nx = 1 then 0 else (i : ℚ) / ((nx : ℚ) - 1))))
    ∧ (¬ 0 < x.getD i 0 →
        (asyfunc sqrtf powf x nx beta).getD i 0 = x.getD i 0)
    ∧ (nx = 1 →
        (asyfunc sqrtf powf x nx beta).getD 0 0
          = if 0 < x.getD 0 0 then powf (x.getD 0 0) 1 else x.getD 0 0) := by
  refine ⟨?_, ?_, ?_, ?_⟩
  · rw [asyfunc, List.length_map, List.length_range]
  · intro h
    rw [asyfunc, getD_range_map _ hi]
    simp only [if_pos h]
  · intro h
    rw [asyfunc, getD_range_map _ hi]
    simp only [if_neg h]
  · intro h
    subst h
    rw [asyfunc, getD_range_map _ (by omega : 0 < 1)]
    by_cases h0 : 0 < x.getD 0 0
    · simp [h0]
    · simp [h0]

/-- Witness for C7 at a concrete input: the positive branch at coordinate 1
of `[4, 9]` in dimension 2, with `sqrt` the identity and power interpreted
as multiplication. -/
theorem asyfunc_spec_witness :
    (0 < ([4, 9] : List ℚ).getD 1 0)
    ∧ (asyfunc id (fun a b => a * b) [4, 9] 2 1).getD 1 0
        = (fun a b => a * b) (([4, 9] : List ℚ).getD 1 0)
            (1 + 1 * id (([4, 9] : List ℚ).getD 1 0)
              * (if (2 : ℕ) = 1 then 0 else (((1 : ℕ) : ℚ)) / ((((2 : ℕ)) : ℚ) - 1))) :=
  ⟨by decide,
    (asyfunc_spec id (fun a b => a * b) [4, 9] 2 1 1 (by decide)).2.1 (by decide)⟩

/-- C4: construction fails with an invalid-argument condition exactly when
the problem id is outside the suite's range (`1..28` for cec2013, `1..30`
for cec2014) or the dimension is outside the suite's fixed supported set;
in particular `cec2014(31, 10)` and `cec2014(1, 7)` fail, and construction
with supported arguments does not fail. -/
theorem ctor_validation :
    (∀ p d : ℕ, (∃ e, cec2014_new p d = Except.error e)
      ↔ (p < 1 ∨ 30 < p ∨ d ∉ cec2014_supported_dims))
    ∧ (∀ p d : ℕ, (∃ e, cec2013_new p d = Except.error e)
      ↔ (p < 1 ∨ 28 < p ∨ d ∉ cec2013_supported_dims))
    ∧ (∃ e, cec2014_new 31 10 = Except.error e)
    ∧ (∃ e, cec2014_new 1 7 = Except.error e)
    ∧ (∀ p d : ℕ, 1 ≤ p → p ≤ 30 → d ∈ cec2014_supported_dims →
        cec2014_new p d = Except.ok ())
    ∧ (∀ p d : ℕ, 1 ≤ p → p ≤ 28 → d ∈ cec2013_supported_dims →
        cec2013_new p d = Except.ok ()) := by
  refine ⟨?_, ?_, ?_, ?_, ?_, ?_⟩
  · intro p d
    rw [cec2014_new]
    split_ifs with h1 h2
    · constructor
      · intro _
        rcases h1 with h | h
        · exact Or.inl h
        · exact Or.inr (Or.inl h)
      · intro _
        exact ⟨_, rfl⟩
    · constructor
      · rintro ⟨e, he⟩
        exact absurd he (by simp)
      · intro h
        rcases h with h | h | h
        · exact absurd (Or.inl h) h1
        · exact absurd (Or.inr h) h1
        · exact absurd h2 h
    · constructor
      · intro _
        right; right; exact h2
      · intro _
        exact ⟨_, rfl⟩
  · intro p d
    rw [cec2013_new]
    split_ifs with h1 h2
    · constructor
      · intro _
        rcases h1 with h | h
        · exact Or.inl h
        · exact Or.inr (Or.inl h)
      · intro _
        exact ⟨_, rfl⟩
    · constructor
      · rintro ⟨e, he⟩
        exact absurd he (by simp)
      · intro h
        rcases h with h | h | h
        · exact absurd (Or.inl h) h1
        · exact absurd (Or.inr h) h1
        · exact absurd h2 h
    · constructor
      · intro _
        right; right; exact h2
      · intro _
        exact ⟨_, rfl⟩
  · exact ⟨"invalid_argument: prob_id", rfl⟩
  · exact ⟨"invalid_argument: dim", rfl⟩
  · intro p d h1 h2 h3
    rw [cec2014_new, if_neg (by omega), if_pos h3]
  · intro p d h1 h2 h3
    rw [cec2013_new, if_neg (by omega), if_pos h3]

/-- Witness for C4 at concrete inputs: a supported 2014 construction
succeeds. -/
theorem ctor_validation_witness :
    1 ≤ 5 ∧ 5 ≤ 30 ∧ 10 ∈ cec2014_supported_dims
      ∧ cec2014_new 5 10 = Except.ok () :=
  ⟨by decide, by decide, by decide,
    ctor_validation.2.2.2.2.1 5 10 (by decide) (by decide) (by decide)⟩

/-- C8: `fitness` is deterministic: a second evaluation at the same input on
the state produced by the first returns the identical result, and the result
does not depend on the contents of the mutable scratch buffers at all. -/
theorem fitness_deterministic (expf : ℚ → ℚ) (s : ProbState) (x : List ℚ) :
    (fitness expf s x).1 = (fitness expf ((fitness expf s x).2) x).1
    ∧ (∀ y1 z1 y2 z2 : List ℚ,
        (fitness expf ⟨s.data, y1, z1⟩ x).1
          = (fitness expf ⟨s.data, y2, z2⟩ x).1) :=
  ⟨rfl, fun _ _ _ _ => rfl⟩

/-- C9: `fitness` returns a vector of length exactly 1 whose single entry is
the scalar fitness value, not a bare scalar. -/
theorem fitness_singleton (expf : ℚ → ℚ) (s : ProbState) (x : List ℚ) :
    (fitness expf s x).1.length = 1
    ∧ (fitness expf s x).1 = [evalScalar expf s.data x] :=
  ⟨rfl, rfl⟩

/-- C10: every `fitness` call leaves the problem id, origin-shift table,
rotation-matrix table and shuffle table unchanged (only the scratch vectors
`m_y`, `m_z` may change), and `get_origin_shift` returns the same vector
before and after any sequence of evaluations. -/
theorem fitness_frame (expf : ℚ → ℚ) (s : ProbState) (x : List ℚ) :
    (fitness expf s x).2.data = s.data
    ∧ (fitness expf s x).2.data.func_num = s.data.func_num
    ∧ (fitness expf s x).2.data.origin_shift = s.data.origin_shift
    ∧ (fitness expf s x).2.data.rotation_matrix = s.data.rotation_matrix
    ∧ (fitness expf s x).2.data.shuffle = s.data.shuffle
    ∧ (∀ xs : List (List ℚ),
        get_origin_shift
            (xs.foldl (fun st v => (fitness expf st v).2) s)
          = get_origin_shift s) := by
  refine ⟨rfl, rfl, rfl, rfl, rfl, ?_⟩
  intro xs
  induction xs generalizing s with
  | nil => rfl
  | cons v t ih => exact ih ((fitness expf s v).2)

theorem floor_toNat_sum_le (ps : List ℚ) (n : ℕ) (hp : ∀ p ∈ ps, 0 ≤ p) :
    (((ps.map (fun p => (⌊p * (n : ℚ)⌋).toNat)).sum : ℕ) : ℚ) ≤ ps.sum * n := by
  induction ps with
  | nil => simp
  | cons p t ih =>
    have hp0 : 0 ≤ p := hp p (List.mem_cons_self p t)
    have ht : ∀ q ∈ t, 0 ≤ q := fun q hq => hp q (List.mem_cons_of_mem p hq)
    have hfl : 0 ≤ ⌊p * (n : ℚ)⌋ :=
      Int.floor_nonneg.mpr (mul_nonneg hp0 (Nat.cast_nonneg n))
    have hcast : (((⌊p * (n : ℚ)⌋).toNat : ℕ) : ℚ) = ((⌊p * (n : ℚ)⌋ : ℤ) : ℚ) := by
      exact_mod_cast congrArg (fun z : ℤ => (z : ℚ)) (Int.toNat_of_nonneg hfl)
    have h1 : (((⌊p * (n : ℚ)⌋).toNat : ℕ) : ℚ) ≤ p * n := by
      rw [hcast]
      exact Int.floor_le _
    have h2 := ih ht
    rw [List.map_cons, List.sum_cons, List.sum_cons, Nat.cast_add, add_mul]
    exact add_le_add h1 h2

theorem partitionBy_flatten (sizes : List ℕ) (x : List ℚ)
    (h : x.length ≤ sizes.sum) : (partitionBy sizes x).flatten = x := by
  induction sizes generalizing x with
  | nil =>
    have hx : x = [] := List.eq_nil_of_length_eq_zero (by simpa using h)
    subst hx
    rfl
  | cons g rest ih =>
    rw [List.sum_cons] at h
    rw [partitionBy, List.flatten_cons,
      ih (x.drop g) (by rw [List.length_drop]; omega)]
    exact List.take_append_drop g x

/-- C3: for every dimension `n` and proportion list `p_1..p_k` (nonnegative,
summing to at most 1), the derived group sizes are `⌊p_i * n⌋` for `i < k`
with the last group absorbing the remainder, they sum to exactly `n`, there
is one group per proportion, and the induced contiguous partition of any
`n`-vector covers every coordinate exactly once (its flattening is the
vector itself: no gaps, no overlaps). -/
theorem groupSizes_spec (ps : List ℚ) (n : ℕ) (x : List ℚ)
    (hne : ps ≠ []) (hp : ∀ p ∈ ps, 0 ≤ p) (hs : ps.sum ≤ 1)
    (hx : x.length = n) :
    groupSizes ps n
      = ps.dropLast.map (fun p => (⌊p * (n : ℚ)⌋).toNat)
        ++ [n - (ps.dropLast.map (fun p => (⌊p * (n : ℚ)⌋).toNat)).sum]
    ∧ (groupSizes ps n).sum = n
    ∧ (groupSizes ps n).length = ps.length
    ∧ (partitionBy (groupSizes ps n) x).flatten = x := by
  have hlast : 0 ≤ ps.getLast hne := hp _ (List.getLast_mem hne)
  have hdl : ps.dropLast.sum ≤ ps.sum := by
    conv_rhs => rw [← List.dropLast_append_getLast hne]
    rw [List.sum_append, List.sum_cons, List.sum_nil, add_zero]
    linarith
  have hdlp : ∀ q ∈ ps.dropLast, 0 ≤ q := fun q hq => hp q (List.dropLast_subset ps hq)
  have hb : ((ps.dropLast.map (fun p => (⌊p * (n : ℚ)⌋).toNat)).sum : ℚ) ≤ n := by
    calc ((ps.dropLast.map (fun p => (⌊p * (n : ℚ)⌋).toNat)).sum : ℚ)
        ≤ ps.dropLast.sum * n := floor_toNat_sum_le ps.dropLast n hdlp
      _ ≤ 1 * n := by
          apply mul_le_mul_of_nonneg_right _ (Nat.cast_nonneg n)
          linarith
      _ = n := one_mul _
  have hbn : (ps.dropLast.map (fun p => (⌊p * (n : ℚ)⌋).toNat)).sum ≤ n := by
    exact_mod_cast hb
  have hA : groupSizes ps n
      = ps.dropLast.map (fun p => (⌊p * (n : ℚ)⌋).toNat)
        ++ [n - (ps.dropLast.map (fun p => (⌊p * (n : ℚ)⌋).toNat)).sum] := by
    rw [groupSizes, if_neg hne]
  have hsum : (groupSizes ps n).sum = n := by
    rw [hA, List.sum_append, List.sum_cons, List.sum_nil, add_zero]
    omega
  refine ⟨hA, hsum, ?_, ?_⟩
  · rw [hA, List.length_append, List.length_map, List.length_dropLast]
    have : 0 < ps.length := List.length_pos.mpr hne
    simp
    omega
  · exact partitionBy_flatten _ x (by rw [hsum, hx])

/-- Witness for C3 at a concrete input: the spec's example 5-way proportion
list at dimension 10. -/
theorem groupSizes_spec_witness :
    ([0.1, 0.2, 0.2, 0.3, 0.2] : List ℚ) ≠ []
    ∧ ([0.1, 0.2, 0.2, 0.3, 0.2] : List ℚ).sum ≤ 1
    ∧ (groupSizes [0.1, 0.2, 0.2, 0.3, 0.2] 10).sum = 10 :=
  ⟨by simp, by norm_num,
    (groupSizes_spec [0.1, 0.2, 0.2, 0.3, 0.2] 10
      [0, 1, 2, 3, 4, 5, 6, 7, 8, 9] (by simp)
      (by norm_num [List.forall_mem_cons]) (by norm_num) rfl).2.1⟩

theorem partitionBy_getD (sizes : List ℕ) (x : List ℚ) :
    ∀ i, i < sizes.length →
      (partitionBy sizes x).getD i []
        = (x.drop ((sizes.take i).sum)).take (sizes.getD i 0) := by
  induction sizes generalizing x with
  | nil =>
    intro i hi
    exact absurd hi (by simp)
  | cons g rest ih =>
    intro i hi
    cases i with
    | zero => simp [partitionBy]
    | succ i =>
      have hi' : i < rest.length := by simpa using hi
      simp only [partitionBy, List.getD_cons_succ, List.take_succ_cons,
        List.sum_cons]
      rw [ih (x.drop g) i hi', List.drop_drop]

theorem shuffled_getD (z : List ℚ) (S : List ℕ) (i : ℕ) (h : i < S.length) :
    (shuffled z S).getD i 0 = z.getD (S.getD i 0) 0 := by
  rw [shuffled, getD_map_lt _ S h 0 0]

/-- C2: the hybrid evaluator applies the shared shift-rotate orchestration to
the entire vector once producing `z`, permutes it with the shuffle table
(`z'[i] = z[shuffle[i]]`), partitions `z'` into contiguous sub-vectors of
the fixed group sizes in order (the `i`-th sub-vector is the slice of length
`g_i` starting at offset `g_1+...+g_{i-1}`), applies each group's base shape
directly to its sub-vector, and returns the sum of the scalar results. -/
theorem hybrid_spec (shapes : List (List ℚ → ℚ)) (sizes S : List ℕ)
    (x Os Mr : List ℚ) (nx : ℕ) (s_flag r_flag : Bool) :
    hybridEval shapes sizes S x Os Mr nx s_flag r_flag
      = (List.zipWith (fun f p => f p) shapes
          (partitionBy sizes (shuffled (sr_func x Os Mr nx 1 s_flag r_flag) S))).sum
    ∧ (∀ i, i < sizes.length →
        (partitionBy sizes (shuffled (sr_func x Os Mr nx 1 s_flag r_flag) S)).getD i []
          = ((shuffled (sr_func x Os Mr nx 1 s_flag r_flag) S).drop
              ((sizes.take i).sum)).take (sizes.getD i 0))
    ∧ (∀ i, i < S.length →
        (shuffled (sr_func x Os Mr nx 1 s_flag r_flag) S).getD i 0
          = (sr_func x Os Mr nx 1 s_flag r_flag).getD (S.getD i 0) 0)
    ∧ (shuffled (sr_func x Os Mr nx 1 s_flag r_flag) S).length = S.length := by
  refine ⟨rfl, ?_, ?_, ?_⟩
  · intro i hi
    exact partitionBy_getD sizes _ i hi
  · intro i hi
    exact shuffled_getD _ S i hi
  · rw [shuffled, List.length_map]

/-- Witness for C2 at a concrete input: the second group of a two-group
partition in dimension 3 is the slice after the first group. -/
theorem hybrid_spec_witness :
    (1 < ([1, 2] : List ℕ).length)
    ∧ (partitionBy [1, 2]
        (shuffled (sr_func [1, 2, 3] [0, 0, 0] [1, 0, 0, 0, 1, 0, 0, 0, 1] 3 1 true true)
          [2, 0, 1])).getD 1 []
      = ((shuffled (sr_func [1, 2, 3] [0, 0, 0] [1, 0, 0, 0, 1, 0, 0, 0, 1] 3 1 true true)
          [2, 0, 1]).drop ((([1, 2] : List ℕ).take 1).sum)).take (([1, 2] : List ℕ).getD 1 0) :=
  ⟨by decide,
    (hybrid_spec [fun l => l.sum] [1, 2] [2, 0, 1] [1, 2, 3] [0, 0, 0]
      [1, 0, 0, 0, 1, 0, 0, 0, 1] 3 true true).2.1 1 (by decide)⟩

theorem sum_map_getD_div (l : List (Option ℚ)) (s : ℚ) :
    (l.map (fun w => w.getD 0 / s)).sum = (l.map (fun w => w.getD 0)).sum / s := by
  induction l with
  | nil => simp
  | cons a t ih => simp [List.map_cons, List.sum_cons, ih, add_div]

theorem mem_of_getElem_some {α : Type} {l : List α} {i : ℕ} {a : α}
    (h : l[i]? = some a) : a ∈ l := by
  rcases List.getElem?_eq_some.1 h with ⟨hlt, he⟩
  exact he ▸ List.getElem_mem hlt

theorem rawWeights_getElem (expf : ℚ → ℚ) (x : List ℚ)
    (shifts : List (List ℚ)) (nx : ℕ) (deltas : List ℚ) (i : ℕ)
    (h1 : i < shifts.length) (h2 : i < deltas.length) :
    (rawWeights expf x shifts nx deltas)[i]?
      = some (rawWeight expf x (shifts.getD i []) nx (deltas.getD i 0)) := by
  have hlen : i < (List.zipWith (fun s d => rawWeight expf x s nx d) shifts deltas).length := by
    rw [List.length_zipWith]
    omega
  show (List.zipWith (fun s d => rawWeight expf x s nx d) shifts deltas)[i]? = _
  rw [List.getElem?_eq_getElem hlen, List.getElem_zipWith,
    ← List.getD_eq_getElem shifts [] h1, ← List.getD_eq_getElem deltas 0 h2]

/-- C1: in the composition evaluator the raw weight of sub-function `i` is
`+infinity` (encoded `none`) exactly when the squared distance
`d_i^2 = ||x - shift_i||^2` is `0`, and `exp(-d_i^2 / (2*n*δ_i^2))`
otherwise; after normalization an infinite raw weight becomes `1` and, when
any raw weight is infinite, every finite one becomes `0`; when all raw
weights are finite and sum to `0` every normalized weight is `1/N`; and
otherwise each weight is divided by the sum, so the normalized weights sum
to `1`. -/
theorem cf_weights_spec (expf : ℚ → ℚ) (x : List ℚ)
    (shifts : List (List ℚ)) (nx : ℕ) (deltas : List ℚ)
    (ws : List (Option ℚ)) (hws : ws = rawWeights expf x shifts nx deltas) :
    (∀ i, i < shifts.length → i < deltas.length →
      (sqdist x (shifts.getD i []) = 0 → ws[i]? = some none)
      ∧ (sqdist x (shifts.getD i []) ≠ 0 →
          ws[i]? = some (some (expf (-(sqdist x (shifts.getD i []))
            / (2 * (nx : ℚ) * (deltas.getD i 0 * deltas.getD i 0)))))))
    ∧ (∀ i, i < ws.length → ws[i]? = some none →
        (normWeights ws)[i]? = some 1)
    ∧ ((∃ i, i < ws.length ∧ ws[i]? = some none) →
        ∀ (j : ℕ) (w : ℚ), ws[j]? = some (some w) → (normWeights ws)[j]? = some 0)
    ∧ ((∀ w ∈ ws, w ≠ none) → (ws.map (fun w => w.getD 0)).sum = 0 →
        normWeights ws = List.replicate ws.length (1 / (ws.length : ℚ)))
    ∧ ((∀ w ∈ ws, w ≠ none) → (ws.map (fun w => w.getD 0)).sum ≠ 0 →
        (∀ (j : ℕ) (w : ℚ), ws[j]? = some (some w) →
          (normWeights ws)[j]? = some (w / (ws.map (fun w2 => w2.getD 0)).sum))
        ∧ (normWeights ws).sum = 1) := by
  refine ⟨?_, ?_, ?_, ?_, ?_⟩
  · intro i h1 h2
    rw [hws, rawWeights_getElem expf x shifts nx deltas i h1 h2]
    constructor
    · intro hd
      rw [rawWeight]
      simp only [hd]
      simp
    · intro hd
      rw [rawWeight]
      simp only [if_neg hd]
  · intro i _ hw
    have hany : (ws.any fun w => w = none) = true := by
      rw [List.any_eq_true]
      exact ⟨none, mem_of_getElem_some hw, by simp⟩
    rw [normWeights, if_pos hany, List.getElem?_map, hw]
    simp
  · rintro ⟨i, _, hw⟩ j w hj
    have hany : (ws.any fun w => w = none) = true := by
      rw [List.any_eq_true]
      exact ⟨none, mem_of_getElem_some hw, by simp⟩
    rw [normWeights, if_pos hany, List.getElem?_map, hj]
    simp
  · intro hfin hsum
    have hany : (ws.any fun w => w = none) = false := by
      simp only [List.any_eq_false, decide_eq_true_eq]
      exact hfin
    rw [normWeights, hany]
    simp only [Bool.false_eq_true, if_false, if_pos hsum]
    simp
  · intro hfin hsum
    have hany : (ws.any fun w => w = none) = false := by
      simp only [List.any_eq_false, decide_eq_true_eq]
      exact hfin
    constructor
    · intro j w hj
      rw [normWeights, hany]
      simp only [Bool.false_eq_true, if_false, if_neg hsum]
      rw [List.getElem?_map, hj]
      rfl
    · rw [normWeights, hany]
      simp only [Bool.false_eq_true, if_false, if_neg hsum]
      rw [sum_map_getD_div, div_self hsum]

/-- Witness for C1 at a concrete input: the first sub-function's shift
coincides with `x`, so its raw weight is infinite and its normalized weight
is `1`. -/
theorem cf_weights_spec_witness :
    (rawWeights id [0, 3] [[0, 3], [1, 3]] 2 [1, 1])
      = rawWeights id [0, 3] [[0, 3], [1, 3]] 2 [1, 1]
    ∧ (rawWeights id [0, 3] [[0, 3], [1, 3]] 2 [1, 1])[0]? = some none
    ∧ (normWeights (rawWeights id [0, 3] [[0, 3], [1, 3]] 2 [1, 1]))[0]? = some 1 :=
  ⟨rfl, by norm_num [rawWeights, rawWeight, sqdist],
    (cf_weights_spec id [0, 3] [[0, 3], [1, 3]] 2 [1, 1]
      (rawWeights id [0, 3] [[0, 3], [1, 3]] 2 [1, 1]) rfl).2.1 0
      (by norm_num [rawWeights]) (by norm_num [rawWeights, rawWeight, sqdist])⟩

end Cec
